import Mathlib

/-!
Verification of the sliding-window rate aggregator of `server_yahoo.py`.

The script keeps a global deque of timestamps and a per-symbol table of
deques (a `defaultdict(deque)`, which preserves first-insertion order of
keys).  Each pricing frame appends the local receipt time to the global
deque and to its symbol's deque.  Once per minute `rate_printer` prunes
every deque (popping head entries strictly older than `now - 60`), builds
the per-symbol rate map, sorts it by rate descending with Python's stable
sort, and reports the global deque length together with the sorted rates.

The embedding below models deques as lists (append at the tail, pop at
the head) and the symbol table as an insertion-ordered association list.
Timestamps (float seconds in the script) are modelled as integers: every
property considered here concerns only the linear order on timestamps and
subtraction of the window length, so any linearly ordered additive group
is an equivalent model.
-/

abbrev Timestamp := ℤ

abbrev Key := String

/-- The `symbol_timestamps` table: an insertion-ordered association list,
mirroring Python's insertion-ordered `defaultdict(deque)`. -/
abbrev SymTable := List (Key × List Timestamp)

/-- The shared mutable state of the script: `global_timestamps` and
`symbol_timestamps`. -/
structure AggState where
  global_timestamps : List Timestamp
  symbol_timestamps : SymTable
deriving DecidableEq

/-- Initial state: both containers empty (`deque()`, `defaultdict(deque)`). -/
def AggState.empty : AggState := ⟨[], []⟩

/-- Reading `symbol_timestamps[k]` without inserting: the deque stored for
`k`, or the empty deque when `k` has never been touched. -/
def lookupRecord (m : SymTable) (k : Key) : List Timestamp :=
  match m with
  | [] => []
  | (k₀, r) :: rest => if k₀ = k then r else lookupRecord rest k

/-- Whether key `k` is present in the table. -/
def hasKey (m : SymTable) (k : Key) : Bool :=
  m.any (fun p => p.1 == k)

/-- `symbol_timestamps[k].append(t)` on a `defaultdict(deque)`: append to
the existing deque, or create a fresh singleton deque at the end of the
insertion order. -/
def appendToKey (m : SymTable) (k : Key) (t : Timestamp) : SymTable :=
  match m with
  | [] => [(k, [t])]
  | (k₀, r) :: rest =>
    if k₀ = k then (k₀, r ++ [t]) :: rest
    else (k₀, r) :: appendToKey rest k t

/-- One pricing event: `global_timestamps.append(now)` and
`symbol_timestamps[symbol].append(now)`. -/
def record (s : AggState) (k : Key) (t : Timestamp) : AggState :=
  { global_timestamps := s.global_timestamps ++ [t]
    symbol_timestamps := appendToKey s.symbol_timestamps k t }

/-- A whole sequence of `record` calls, in order. -/
def recordAll (s : AggState) (evs : List (Key × Timestamp)) : AggState :=
  evs.foldl (fun a e => record a e.1 e.2) s

/-- The prune loop `while dq and dq[0] < cutoff: dq.popleft()`. -/
def pruneLoop (cutoff : Timestamp) : List Timestamp → List Timestamp
  | [] => []
  | t :: r => if t < cutoff then pruneLoop cutoff r else t :: r

/-- The spec's `prune_and_count`: prune the record at `now - window` and
return the pruned record together with its remaining length. -/
def prune_and_count (r : List Timestamp) (now window : Timestamp) :
    List Timestamp × Nat :=
  let pruned := pruneLoop (now - window) r
  (pruned, pruned.length)

/-- Stable descending insertion by rate: a later element is placed after
every earlier element whose rate is ≥ its own, exactly the order produced
by Python's stable `sorted(..., key=rate, reverse=True)`. -/
def insertDesc (x : Key × Nat) : List (Key × Nat) → List (Key × Nat)
  | [] => [x]
  | y :: ys => if y.2 < x.2 then x :: y :: ys else y :: insertDesc x ys

/-- `sorted(per_symbol_rates.items(), key=lambda x: x[1], reverse=True)`:
stable sort by rate descending. -/
def sortRatesDesc (l : List (Key × Nat)) : List (Key × Nat) :=
  l.foldl (fun acc x => insertDesc x acc) []

/-- The report computed by one `rate_printer` tick. -/
structure Snapshot where
  global_rate : Nat
  entries : List (Key × Nat)
deriving DecidableEq

/-- One body iteration of `rate_printer`: prune the global deque, prune
every symbol deque in place, keep the symbols with a positive remaining
count, sort them by rate descending (stably), and report.  Returns the
mutated state together with the printed snapshot. -/
def snapshot (s : AggState) (now window : Timestamp) : AggState × Snapshot :=
  let one_minute_ago := now - window
  let g := pruneLoop one_minute_ago s.global_timestamps
  let syms := s.symbol_timestamps.map (fun p => (p.1, pruneLoop one_minute_ago p.2))
  let per_symbol_rates :=
    (syms.filter (fun p => decide (0 < p.2.length))).map (fun p => (p.1, p.2.length))
  (⟨g, syms⟩, ⟨g.length, sortRatesDesc per_symbol_rates⟩)

/-- The `message` object of a pricing frame: only its optional `id` field
is consumed by the script. -/
structure PricingBody where
  id : Option Key
deriving DecidableEq

/-- A decoded inbound frame as consumed by the ingestion loop: the
optional top-level `type` discriminator and the optional `message`
object. -/
structure Decoded where
  type : Option String
  message : Option PricingBody
deriving DecidableEq

/-- The per-frame body of the ingestion loop: if `data.get("type") ==
"pricing"`, read `data.get("message", {}).get("id", "UNKNOWN")` and record
the receipt time `now`; otherwise leave the state untouched and forward
the decoded frame unchanged to the observer (the `System Message` print),
returned here as the second component. -/
def processFrame (s : AggState) (d : Decoded) (now : Timestamp) :
    AggState × Option Decoded :=
  if d.type = some "pricing" then
    let message := d.message.getD ⟨none⟩
    let symbol := message.id.getD "UNKNOWN"
    (record s symbol now, none)
  else
    (s, some d)

/-! ### Basic facts about the prune loop -/

/-- The prune loop is `dropWhile (· < cutoff)`. -/
theorem pruneLoop_eq_dropWhile (c : Timestamp) (r : List Timestamp) :
    pruneLoop c r = r.dropWhile (fun t => decide (t < c)) := by
  induction r with
  | nil => rfl
  | cons t r ih =>
    by_cases h : t < c
    · simp [pruneLoop, h, List.dropWhile_cons, ih]
    · simp [pruneLoop, h, List.dropWhile_cons]

/-- The prune loop removes a head segment: the record splits as the
removed stale prefix followed by the pruned remainder. -/
theorem pruneLoop_head_split (c : Timestamp) (r : List Timestamp) :
    r = r.takeWhile (fun t => decide (t < c)) ++ pruneLoop c r := by
  rw [pruneLoop_eq_dropWhile, List.takeWhile_append_dropWhile]

/-- Every timestamp the prune loop removes is strictly below the cutoff. -/
theorem pruneLoop_removed_stale (c : Timestamp) (r : List Timestamp) :
    ∀ t ∈ r.takeWhile (fun t => decide (t < c)), t < c := by
  intro t ht
  simpa using List.mem_takeWhile_imp ht

/-- On a record with non-decreasing timestamps, the prune loop keeps
exactly the timestamps `≥ cutoff` (in particular a timestamp equal to the
cutoff is retained). -/
theorem pruneLoop_sorted_eq_filter (c : Timestamp) (r : List Timestamp)
    (h : List.Sorted (· ≤ ·) r) :
    pruneLoop c r = r.filter (fun t => decide (c ≤ t)) := by
  induction r with
  | nil => rfl
  | cons t r ih =>
    rw [List.sorted_cons] at h
    by_cases hlt : t < c
    · have : ¬ c ≤ t := not_le.mpr hlt
      simp [pruneLoop, hlt, this, ih h.2]
    · have hct : c ≤ t := not_lt.mp hlt
      simp only [pruneLoop, if_neg hlt, List.filter_cons, decide_eq_true_eq, hct, if_pos]
      have : r.filter (fun t => decide (c ≤ t)) = r := by
        rw [List.filter_eq_self]
        intro a ha
        simpa using hct.trans (h.1 a ha)
      rw [this]

/-- Every timestamp surviving a prune of a non-decreasing record is at or
above the cutoff. -/
theorem pruneLoop_mem_ge (c : Timestamp) (r : List Timestamp)
    (h : List.Sorted (· ≤ ·) r) :
    ∀ t ∈ pruneLoop c r, c ≤ t := by
  intro t ht
  rw [pruneLoop_sorted_eq_filter c r h] at ht
  simpa using (List.mem_filter.mp ht).2

/-- Pruning an already-pruned record removes nothing. -/
theorem pruneLoop_idem (c : Timestamp) (r : List Timestamp) :
    pruneLoop c (pruneLoop c r) = pruneLoop c r := by
  induction r with
  | nil => rfl
  | cons t r ih =>
    by_cases h : t < c
    · simp [pruneLoop, h, ih]
    · simp [pruneLoop, h]

/-! ### Facts about the symbol table -/

/-- Appending for key `k` appends to exactly that key's record. -/
theorem lookupRecord_appendToKey_self (m : SymTable) (k : Key) (t : Timestamp) :
    lookupRecord (appendToKey m k t) k = lookupRecord m k ++ [t] := by
  induction m with
  | nil => simp [appendToKey, lookupRecord]
  | cons q m ih =>
    by_cases h : q.1 = k
    · simp [appendToKey, lookupRecord, h]
    · simp [appendToKey, lookupRecord, h, ih]

/-- Appending for key `k` leaves every other key's record untouched. -/
theorem lookupRecord_appendToKey_ne (m : SymTable) (k j : Key) (t : Timestamp)
    (h : j ≠ k) :
    lookupRecord (appendToKey m k t) j = lookupRecord m j := by
  induction m with
  | nil => simp [appendToKey, lookupRecord, Ne.symm h]
  | cons q m ih =>
    obtain ⟨k₀, r⟩ := q
    by_cases hq : k₀ = k
    · have hkj : k₀ ≠ j := fun hj => h (hj.symm.trans hq)
      simp [appendToKey, lookupRecord, hq, hkj, Ne.symm h]
    · by_cases hj : k₀ = j
      · simp [appendToKey, lookupRecord, hq, hj, h]
      · simp [appendToKey, lookupRecord, hq, hj, ih]

/-- A pair of the table after an append is either an untouched old pair or
the appended pair for key `k` (whose old record was either present or
empty). -/
theorem mem_appendToKey (m : SymTable) (k : Key) (t : Timestamp) :
    ∀ p ∈ appendToKey m k t,
      p ∈ m ∨ ∃ r, p = (k, r ++ [t]) ∧ ((k, r) ∈ m ∨ r = []) := by
  induction m with
  | nil =>
    intro p hp
    simp only [appendToKey, List.mem_singleton] at hp
    exact Or.inr ⟨[], by simpa using hp, Or.inr rfl⟩
  | cons q m ih =>
    intro p hp
    by_cases h : q.1 = k
    · simp only [appendToKey, if_pos h, List.mem_cons] at hp
      rcases hp with hp | hp
      · exact Or.inr ⟨q.2, by simp [hp, h], Or.inl (by simp [← h])⟩
      · exact Or.inl (List.mem_cons_of_mem q hp)
    · simp only [appendToKey, if_neg h, List.mem_cons] at hp
      rcases hp with hp | hp
      · exact Or.inl (by simp [hp])
      · rcases ih p hp with hm | ⟨r, hr, hro⟩
        · exact Or.inl (List.mem_cons_of_mem q hm)
        · exact Or.inr ⟨r, hr, hro.imp_left (List.mem_cons_of_mem q)⟩

/-- Appending preserves presence of a key. -/
theorem hasKey_appendToKey (m : SymTable) (k j : Key) (t : Timestamp)
    (h : hasKey m j = true) : hasKey (appendToKey m k t) j = true := by
  induction m with
  | nil => simp [hasKey] at h
  | cons q m ih =>
    obtain ⟨k₀, r⟩ := q
    simp only [hasKey, List.any_cons, Bool.or_eq_true, beq_iff_eq] at h
    by_cases hq : k₀ = k
    · simp only [appendToKey, if_pos hq, hasKey, List.any_cons, Bool.or_eq_true,
        beq_iff_eq]
      exact h
    · simp only [appendToKey, if_neg hq, hasKey, List.any_cons, Bool.or_eq_true,
        beq_iff_eq]
      rcases h with h | h
      · exact Or.inl h
      · exact Or.inr (ih h)

/-- The record returned by a lookup is either empty or one of the
table's stored records for that key. -/
theorem lookupRecord_cases (m : SymTable) (k : Key) :
    lookupRecord m k = [] ∨ (k, lookupRecord m k) ∈ m := by
  induction m with
  | nil => exact Or.inl rfl
  | cons q m ih =>
    by_cases h : q.1 = k
    · subst h
      exact Or.inr (by simp [lookupRecord])
    · simpa [lookupRecord, h] using ih.imp_right (List.mem_cons_of_mem q)

/-! ### Facts about `record` and `recordAll` -/

/-- The global deque accumulates exactly the recorded timestamps in
order. -/
theorem recordAll_global (evs : List (Key × Timestamp)) :
    ∀ s : AggState,
      (recordAll s evs).global_timestamps
        = s.global_timestamps ++ evs.map Prod.snd := by
  induction evs with
  | nil => intro s; simp [recordAll]
  | cons e evs ih =>
    intro s
    show (recordAll (record s e.1 e.2) evs).global_timestamps = _
    rw [ih (record s e.1 e.2)]
    simp [record]

/-- Invariant: every record stored in the symbol table is a sublist of
the global deque (each symbol deque holds that symbol's subsequence of
the globally recorded timestamps). -/
theorem recordAll_sublist (evs : List (Key × Timestamp)) :
    ∀ s : AggState,
      (∀ p ∈ s.symbol_timestamps, p.2.Sublist s.global_timestamps) →
      ∀ p ∈ (recordAll s evs).symbol_timestamps,
        p.2.Sublist (recordAll s evs).global_timestamps := by
  induction evs with
  | nil => intro s h; simpa [recordAll] using h
  | cons e evs ih =>
    intro s h
    simp only [recordAll, List.foldl_cons]
    refine ih (record s e.1 e.2) ?_
    intro p hp
    rcases mem_appendToKey s.symbol_timestamps e.1 e.2 p hp with hm | ⟨r, hr, hro⟩
    · exact (h p hm).trans (List.sublist_append_left _ _)
    · rcases hro with hro | hro
      · exact hr ▸ (h _ hro).append (List.Sublist.refl [e.2])
      · subst hro
        rw [hr]
        simp [record]

/-- When the recorded timestamps are non-decreasing, every symbol's
record is non-decreasing as well. -/
theorem recordAll_record_sorted (evs : List (Key × Timestamp))
    (hmono : List.Sorted (· ≤ ·) (evs.map Prod.snd)) (k : Key) :
    List.Sorted (· ≤ ·)
      (lookupRecord (recordAll AggState.empty evs).symbol_timestamps k) := by
  rcases lookupRecord_cases (recordAll AggState.empty evs).symbol_timestamps k with
    h | h
  · rw [h]; exact List.sorted_nil
  · have hsub := recordAll_sublist evs AggState.empty (by simp [AggState.empty]) _ h
    rw [recordAll_global evs AggState.empty] at hsub
    simp only [AggState.empty, List.nil_append] at hsub
    exact hmono.sublist hsub

/-! ### Facts about the stable descending sort -/

/-- Descending-rate order on report entries. -/
def RateDesc (a b : Key × Nat) : Prop := b.2 ≤ a.2

/-- Stable insertion only rearranges: the result is a permutation of
consing the new element. -/
theorem insertDesc_perm (x : Key × Nat) (l : List (Key × Nat)) :
    List.Perm (insertDesc x l) (x :: l) := by
  induction l with
  | nil => exact List.Perm.refl _
  | cons y ys ih =>
    by_cases h : y.2 < x.2
    · simp [insertDesc, h]
    · rw [insertDesc, if_neg h]
      exact (ih.cons y).trans (List.Perm.swap x y ys)

/-- The stable sort is a permutation of its input. -/
theorem sortRatesDesc_perm (l : List (Key × Nat)) :
    List.Perm (sortRatesDesc l) l := by
  have key : ∀ (l acc : List (Key × Nat)),
      List.Perm (l.foldl (fun acc x => insertDesc x acc) acc) (l ++ acc) := by
    intro l
    induction l with
    | nil => intro acc; simp
    | cons x xs ih =>
      intro acc
      have h1 := ih (insertDesc x acc)
      have h2 : List.Perm (xs ++ insertDesc x acc) (xs ++ x :: acc) :=
        (insertDesc_perm x acc).append_left xs
      have h3 : List.Perm (xs ++ x :: acc) (x :: (xs ++ acc)) := List.perm_middle
      simpa using (h1.trans h2).trans h3
  simpa using key l []

/-- Stable insertion preserves descending order. -/
theorem insertDesc_pairwise (x : Key × Nat) (l : List (Key × Nat))
    (h : l.Pairwise RateDesc) : (insertDesc x l).Pairwise RateDesc := by
  induction l with
  | nil => simp [insertDesc]
  | cons y ys ih =>
    rw [List.pairwise_cons] at h
    by_cases hlt : y.2 < x.2
    · rw [insertDesc, if_pos hlt, List.pairwise_cons]
      refine ⟨?_, List.pairwise_cons.mpr h⟩
      intro b hb
      rcases List.mem_cons.mp hb with hb | hb
      · exact hb ▸ hlt.le
      · exact (h.1 b hb).trans hlt.le
    · rw [insertDesc, if_neg hlt, List.pairwise_cons]
      refine ⟨?_, ih h.2⟩
      intro b hb
      rcases List.mem_cons.mp ((insertDesc_perm x ys).mem_iff.mp hb) with hb | hb
      · exact hb ▸ not_lt.mp hlt
      · exact h.1 b hb

/-- The stable sort produces a rate-descending list. -/
theorem sortRatesDesc_pairwise (l : List (Key × Nat)) :
    (sortRatesDesc l).Pairwise RateDesc := by
  have key : ∀ (l acc : List (Key × Nat)), acc.Pairwise RateDesc →
      (l.foldl (fun acc x => insertDesc x acc) acc).Pairwise RateDesc := by
    intro l
    induction l with
    | nil => intro acc h; simpa using h
    | cons x xs ih =>
      intro acc h
      exact ih (insertDesc x acc) (insertDesc_pairwise x acc h)
  exact key l [] List.Pairwise.nil

/-- Inserting into a rate-descending accumulator appends the new element
after the existing elements of its own rate and leaves the elements of
every other rate untouched. -/
theorem insertDesc_filter_eq (x : Key × Nat) (acc : List (Key × Nat))
    (hs : acc.Pairwise RateDesc) (n : Nat) :
    (insertDesc x acc).filter (fun e => e.2 == n)
      = if x.2 = n then acc.filter (fun e => e.2 == n) ++ [x]
        else acc.filter (fun e => e.2 == n) := by
  induction acc with
  | nil =>
    by_cases h : x.2 = n <;> simp [insertDesc, h]
  | cons y ys ih =>
    rw [List.pairwise_cons] at hs
    by_cases hlt : y.2 < x.2
    · rw [insertDesc, if_pos hlt]
      by_cases hn : x.2 = n
      · have hy : ¬ y.2 = n := by
          intro hy
          rw [hn] at hlt
          rw [hy] at hlt
          exact lt_irrefl n hlt
        have hys : ∀ z ∈ ys, ¬ z.2 = n := by
          intro z hz hzn
          have hzx : z.2 < x.2 := lt_of_le_of_lt (hs.1 z hz) hlt
          rw [hn, hzn] at hzx
          exact lt_irrefl n hzx
        have hnil : ys.filter (fun e => e.2 == n) = [] := by
          rw [List.filter_eq_nil_iff]
          intro z hz
          simpa using hys z hz
        simp [List.filter_cons, hn, hy, hnil]
      · simp [List.filter_cons, hn]
    · rw [insertDesc, if_neg hlt]
      rw [List.filter_cons, List.filter_cons]
      by_cases hy : y.2 = n
      · simp only [hy, beq_self_eq_true, if_pos]
        rw [ih hs.2]
        by_cases hn : x.2 = n <;> simp [hn]
      · simp only [beq_iff_eq, hy, if_neg, ite_false]
        exact ih hs.2

/-- Stability of the sort: for every rate value, the entries carrying
that rate appear in the sorted output exactly as they appeared in the
input, in the same relative order. -/
theorem sortRatesDesc_stable (l : List (Key × Nat)) (n : Nat) :
    (sortRatesDesc l).filter (fun e => e.2 == n)
      = l.filter (fun e => e.2 == n) := by
  have key : ∀ (l acc : List (Key × Nat)), acc.Pairwise RateDesc →
      (l.foldl (fun acc x => insertDesc x acc) acc).filter (fun e => e.2 == n)
        = acc.filter (fun e => e.2 == n) ++ l.filter (fun e => e.2 == n) := by
    intro l
    induction l with
    | nil => intro acc h; simp
    | cons x xs ih =>
      intro acc h
      rw [List.foldl_cons, ih (insertDesc x acc) (insertDesc_pairwise x acc h),
        insertDesc_filter_eq x acc h n]
      by_cases hn : x.2 = n
      · simp [List.filter_cons, hn, List.append_assoc]
      · simp [List.filter_cons, hn]
  simpa using key l [] List.Pairwise.nil

/-! ### The symbol table's key order is first-recorded order -/

/-- The keys of the symbol table, in table order. -/
def tableKeys (m : SymTable) : List Key := m.map Prod.fst

/-- The keys of a sequence, each listed once at its first occurrence. -/
def firstSeen (ks : List Key) : List Key :=
  ks.foldl (fun acc k => if k ∈ acc then acc else acc ++ [k]) []

/-- Appending a timestamp keeps the key order, adding an unseen key at
the end. -/
theorem tableKeys_appendToKey (m : SymTable) (k : Key) (t : Timestamp) :
    tableKeys (appendToKey m k t)
      = if k ∈ tableKeys m then tableKeys m else tableKeys m ++ [k] := by
  induction m with
  | nil => simp [appendToKey, tableKeys]
  | cons q m ih =>
    obtain ⟨k₀, r⟩ := q
    by_cases h : k₀ = k
    · rw [appendToKey, if_pos h]
      have hk : k ∈ tableKeys ((k₀, r) :: m) := by
        simp [tableKeys, h.symm]
      rw [if_pos hk]
      simp [tableKeys]
    · rw [appendToKey, if_neg h]
      have hmem : k ∈ tableKeys ((k₀, r) :: m) ↔ k ∈ tableKeys m := by
        simp [tableKeys, Ne.symm h]
      by_cases hk : k ∈ tableKeys m
      · rw [if_pos (hmem.mpr hk)]
        show k₀ :: tableKeys (appendToKey m k t) = k₀ :: tableKeys m
        rw [ih, if_pos hk]
      · rw [if_neg (fun hh => hk (hmem.mp hh))]
        show k₀ :: tableKeys (appendToKey m k t) = (k₀ :: tableKeys m) ++ [k]
        rw [ih, if_neg hk]
        rfl

/-- After any sequence of `record` calls on the empty state, the symbol
table lists its keys in the order they were first recorded. -/
theorem recordAll_tableKeys (evs : List (Key × Timestamp)) :
    ∀ acc : SymTable,
      tableKeys (recordAll ⟨[], acc⟩ evs).symbol_timestamps
        = (evs.map Prod.fst).foldl
            (fun seen k => if k ∈ seen then seen else seen ++ [k])
            (tableKeys acc) := by
  induction evs with
  | nil => intro acc; simp [recordAll]
  | cons e evs ih =>
    intro acc
    show tableKeys (recordAll (record ⟨[], acc⟩ e.1 e.2) evs).symbol_timestamps = _
    have hrec : record (⟨[], acc⟩ : AggState) e.1 e.2
        = ⟨[e.2], appendToKey acc e.1 e.2⟩ := by
      simp [record]
    rw [hrec]
    have hglobal : ∀ g₁ g₂ : List Timestamp, ∀ m : SymTable,
        (recordAll ⟨g₁, m⟩ evs).symbol_timestamps
          = (recordAll ⟨g₂, m⟩ evs).symbol_timestamps := by
      clear ih
      induction evs with
      | nil => intro g₁ g₂ m; simp [recordAll]
      | cons f evs ihe =>
        intro g₁ g₂ m
        show (recordAll (record ⟨g₁, m⟩ f.1 f.2) evs).symbol_timestamps = _
        simp only [record]
        exact ihe _ _ _
    rw [hglobal [e.2] [] (appendToKey acc e.1 e.2), ih (appendToKey acc e.1 e.2)]
    simp only [List.map_cons, List.foldl_cons]
    rw [tableKeys_appendToKey]

/-! ### The global deque as the merge of the symbol deques -/

/-- All timestamps stored in the symbol table, in table order. -/
def flattenSyms (m : SymTable) : List Timestamp :=
  (m.map Prod.snd).flatten

/-- Appending for one key adds exactly one timestamp to the flattened
table contents. -/
theorem flattenSyms_appendToKey (m : SymTable) (k : Key) (t : Timestamp) :
    List.Perm (flattenSyms (appendToKey m k t)) (flattenSyms m ++ [t]) := by
  induction m with
  | nil => simp [appendToKey, flattenSyms]
  | cons q m ih =>
    obtain ⟨k₀, r⟩ := q
    by_cases h : k₀ = k
    · rw [appendToKey, if_pos h]
      simp only [flattenSyms, List.map_cons, List.flatten_cons, List.append_assoc]
      exact List.perm_append_comm.append_left r
    · rw [appendToKey, if_neg h]
      simp only [flattenSyms, List.map_cons, List.flatten_cons, List.append_assoc]
      exact ih.append_left r

/-- Invariant: the global deque is a permutation of all the symbol
deques' contents together — every recorded event went to both its key's
deque and the global deque. -/
theorem recordAll_global_perm_flatten (evs : List (Key × Timestamp)) :
    ∀ s : AggState,
      List.Perm s.global_timestamps (flattenSyms s.symbol_timestamps) →
      List.Perm (recordAll s evs).global_timestamps
        (flattenSyms (recordAll s evs).symbol_timestamps) := by
  induction evs with
  | nil => intro s h; simpa [recordAll] using h
  | cons e evs ih =>
    intro s h
    show List.Perm (recordAll (record s e.1 e.2) evs).global_timestamps _
    refine ih (record s e.1 e.2) ?_
    show List.Perm (s.global_timestamps ++ [e.2])
      (flattenSyms (appendToKey s.symbol_timestamps e.1 e.2))
    exact ((h.append_right [e.2]).trans
      (flattenSyms_appendToKey s.symbol_timestamps e.1 e.2).symm)

/-- The record held for key `k` after a sequence of `record` calls
starting from the empty state. -/
def keyRecord (evs : List (Key × Timestamp)) (k : Key) : List Timestamp :=
  lookupRecord (recordAll AggState.empty evs).symbol_timestamps k

/-! ### The claims -/

/-- C1: after `record` calls with non-decreasing timestamps, pruning a
key's record at `(now, window)` removes exactly the head timestamps
strictly below `now - window` and returns the remaining count: the pruned
record is exactly the timestamps `≥ now - window` (so a timestamp equal
to `now - window` is retained), the record splits as the removed stale
head followed by the pruned remainder, every removed timestamp is
strictly below `now - window`, and every surviving timestamp is
`≥ now - window`. -/
theorem prune_and_count_exact (evs : List (Key × Timestamp))
    (hmono : List.Sorted (· ≤ ·) (evs.map Prod.snd))
    (k : Key) (now window : Timestamp) :
    prune_and_count (keyRecord evs k) now window
      = ((keyRecord evs k).filter (fun t => decide (now - window ≤ t)),
         ((keyRecord evs k).filter (fun t => decide (now - window ≤ t))).length)
    ∧ keyRecord evs k
        = (keyRecord evs k).takeWhile (fun t => decide (t < now - window))
            ++ (prune_and_count (keyRecord evs k) now window).1
    ∧ (∀ t ∈ (keyRecord evs k).takeWhile (fun t => decide (t < now - window)),
        t < now - window)
    ∧ ∀ t ∈ (prune_and_count (keyRecord evs k) now window).1, now - window ≤ t := by
  have hs := recordAll_record_sorted evs hmono k
  have hf := pruneLoop_sorted_eq_filter (now - window) (keyRecord evs k) hs
  refine ⟨?_, ?_, ?_, ?_⟩
  · simp [prune_and_count, hf]
  · exact pruneLoop_head_split (now - window) (keyRecord evs k)
  · exact pruneLoop_removed_stale (now - window) (keyRecord evs k)
  · exact pruneLoop_mem_ge (now - window) (keyRecord evs k) hs

/-- Witness for C1 at a concrete input, exercising the boundary: with
records at times 0 and 1 and cutoff `61 - 60 = 1`, the timestamp 0 is
removed and the timestamp 1 (equal to the cutoff) is retained. -/
theorem prune_and_count_exact_witness :
    List.Sorted (· ≤ ·) ([("A", 0), ("A", 1)].map (Prod.snd (α := Key)))
    ∧ (prune_and_count (keyRecord [("A", 0), ("A", 1)] "A") 61 60
        = ((keyRecord [("A", 0), ("A", 1)] "A").filter
            (fun t => decide ((61 : Timestamp) - 60 ≤ t)),
           ((keyRecord [("A", 0), ("A", 1)] "A").filter
            (fun t => decide ((61 : Timestamp) - 60 ≤ t))).length)
      ∧ keyRecord [("A", 0), ("A", 1)] "A"
          = (keyRecord [("A", 0), ("A", 1)] "A").takeWhile
              (fun t => decide (t < (61 : Timestamp) - 60))
              ++ (prune_and_count (keyRecord [("A", 0), ("A", 1)] "A") 61 60).1
      ∧ (∀ t ∈ (keyRecord [("A", 0), ("A", 1)] "A").takeWhile
            (fun t => decide (t < (61 : Timestamp) - 60)), t < (61 : Timestamp) - 60)
      ∧ ∀ t ∈ (prune_and_count (keyRecord [("A", 0), ("A", 1)] "A") 61 60).1,
          (61 : Timestamp) - 60 ≤ t) :=
  ⟨by decide, prune_and_count_exact [("A", 0), ("A", 1)] (by decide) "A" 61 60⟩

/-- C6: recording timestamps 0, 1, 2 for `"AAPL"` and 0 for `"GOOG"`,
the report at `now = 2`, `window = 60` is global rate 4 with entries
`[("AAPL", 3), ("GOOG", 1)]`, and the report over the same data at
`now = 65` is global rate 0 with no entries. -/
theorem snapshot_scenario :
    (snapshot (recordAll AggState.empty
        [("AAPL", 0), ("AAPL", 1), ("AAPL", 2), ("GOOG", 0)]) 2 60).2
      = ⟨4, [("AAPL", 3), ("GOOG", 1)]⟩
    ∧ (snapshot (recordAll AggState.empty
        [("AAPL", 0), ("AAPL", 1), ("AAPL", 2), ("GOOG", 0)]) 65 60).2
      = ⟨0, []⟩ := by
  exact ⟨by decide, by decide⟩

/-- C7: taking a snapshot twice in succession at the same `(now, window)`
yields the same report and the same state — the destructive head-pruning
of the first snapshot removes everything a second prune would remove. -/
theorem snapshot_idempotent (s : AggState) (now window : Timestamp) :
    snapshot (snapshot s now window).1 now window = snapshot s now window := by
  have hsyms :
      (s.symbol_timestamps.map (fun p => (p.1, pruneLoop (now - window) p.2))).map
          (fun p => (p.1, pruneLoop (now - window) p.2))
        = s.symbol_timestamps.map (fun p => (p.1, pruneLoop (now - window) p.2)) := by
    rw [List.map_map]
    refine List.map_congr_left ?_
    intro p _
    simp [Function.comp, pruneLoop_idem]
  simp only [snapshot]
  rw [pruneLoop_idem, hsyms]

/-- C3 fails as stated: recording `"B"` and then `"A"` with the same
single timestamp gives two entries of equal rate 1, reported as
`[("B", 1), ("A", 1)]` even though `"A" < "B"` — equal rates are not
ordered by key ascending, and two symbols with identical timestamp sets
are not reported with the lexicographically smaller symbol first. -/
theorem snapshot_tie_order_counterexample :
    (snapshot (recordAll AggState.empty [("B", 0), ("A", 0)]) 0 60).2.entries
      = [("B", 1), ("A", 1)]
    ∧ ("A" : Key) < "B"
    ∧ (snapshot (recordAll AggState.empty [("B", 0), ("A", 0)]) 0 60).2.entries
      ≠ [("A", 1), ("B", 1)] := by
  refine ⟨by decide, ?_, by decide⟩
  rw [String.lt_iff_toList_lt]
  decide

/-- C3 (amended): report entries are sorted by rate descending, but ties
are broken by the order in which the keys were first recorded, not by key
ascending.  Formally: (1) the entries are rate-descending; (2) for every
rate value, the entries carrying that rate appear exactly as in the
pre-sort rate map, which lists keys in symbol-table order (Python's
`sorted` is stable and the rate map preserves the `defaultdict`'s
insertion order); (3) the symbol table lists its keys in the order they
were first recorded; (4)/(5) feeding two symbols identical timestamp sets
yields the earlier-recorded symbol first whichever of the two is
lexicographically smaller — `AAPL` before `GOOG` when `AAPL` is recorded
first, `GOOG` before `AAPL` when `GOOG` is. -/
theorem snapshot_entries_sorted_stable (s : AggState)
    (evs : List (Key × Timestamp)) (now window : Timestamp) :
    ((snapshot s now window).2.entries.Pairwise RateDesc)
    ∧ (∀ n : Nat,
        (snapshot s now window).2.entries.filter (fun e => e.2 == n)
          = (((s.symbol_timestamps.map
                (fun p => (p.1, pruneLoop (now - window) p.2))).filter
                  (fun p => decide (0 < p.2.length))).map
                    (fun p => (p.1, p.2.length))).filter (fun e => e.2 == n))
    ∧ tableKeys (recordAll AggState.empty evs).symbol_timestamps
        = firstSeen (evs.map Prod.fst)
    ∧ (snapshot (recordAll AggState.empty [("AAPL", 0), ("GOOG", 0)]) 0 60).2.entries
        = [("AAPL", 1), ("GOOG", 1)]
    ∧ (snapshot (recordAll AggState.empty [("GOOG", 0), ("AAPL", 0)]) 0 60).2.entries
        = [("GOOG", 1), ("AAPL", 1)] := by
  refine ⟨sortRatesDesc_pairwise _, ?_, ?_, by decide, by decide⟩
  · intro n
    exact sortRatesDesc_stable _ n
  · exact recordAll_tableKeys evs []

/-- Summing the per-key lengths after dropping the zero-length records
changes nothing. -/
theorem sum_map_length_filter_pos (L : List (Key × List Timestamp)) :
    ((L.filter (fun p => decide (0 < p.2.length))).map (fun p => p.2.length)).sum
      = (L.map (fun p => p.2.length)).sum := by
  induction L with
  | nil => rfl
  | cons q L ih =>
    by_cases h : 0 < q.2.length
    · simp [List.filter_cons, h, ih]
    · have h0 : q.2.length = 0 := Nat.eq_zero_of_not_pos h
      simp [List.filter_cons, h, ih, h0]

/-- C2: for every state built by `record` calls with non-decreasing
timestamps, the reported global rate equals the sum of the reported
per-key rates at the same `(now, window)` evaluation point. -/
theorem snapshot_global_rate_eq_sum (evs : List (Key × Timestamp))
    (hmono : List.Sorted (· ≤ ·) (evs.map Prod.snd)) (now window : Timestamp) :
    (snapshot (recordAll AggState.empty evs) now window).2.global_rate
      = (((snapshot (recordAll AggState.empty evs) now window).2.entries).map
          Prod.snd).sum := by
  have hglobal := recordAll_global evs AggState.empty
  simp only [AggState.empty, List.nil_append] at hglobal
  have hgsorted : List.Sorted (· ≤ ·)
      (recordAll AggState.empty evs).global_timestamps := hglobal ▸ hmono
  have hperm := recordAll_global_perm_flatten evs AggState.empty
    (by simp [AggState.empty, flattenSyms])
  have hsub := recordAll_sublist evs AggState.empty (by simp [AggState.empty])
  set st := (recordAll AggState.empty evs).symbol_timestamps with hst
  set g := (recordAll AggState.empty evs).global_timestamps with hg
  set c := now - window with hc
  -- left side: the pruned global length counts the timestamps ≥ c
  have lhs_eq : (pruneLoop c g).length = g.countP (fun t => decide (c ≤ t)) := by
    rw [pruneLoop_sorted_eq_filter c g hgsorted, List.countP_eq_length_filter]
  -- distribute the count over the symbol records
  have count_eq : g.countP (fun t => decide (c ≤ t))
      = (st.map (fun p => p.2.countP (fun t => decide (c ≤ t)))).sum := by
    rw [hperm.countP_eq, flattenSyms, List.countP_flatten, List.map_map]
    rfl
  -- each symbol record is sorted, so its count is its pruned length
  have per_key : ∀ p ∈ st, p.2.countP (fun t => decide (c ≤ t))
      = (pruneLoop c p.2).length := by
    intro p hp
    have hpsorted : List.Sorted (· ≤ ·) p.2 := hgsorted.sublist (hsub p hp)
    rw [pruneLoop_sorted_eq_filter c p.2 hpsorted, List.countP_eq_length_filter]
  -- right side: the sorted entries sum to the pruned per-key lengths
  have rhs_perm : List.Perm
      (((snapshot (recordAll AggState.empty evs) now window).2.entries).map
        Prod.snd)
      ((((st.map (fun p => (p.1, pruneLoop c p.2))).filter
          (fun p => decide (0 < p.2.length))).map
            (fun p => (p.1, p.2.length))).map Prod.snd) :=
    (sortRatesDesc_perm _).map Prod.snd
  have goal_lhs : (snapshot (recordAll AggState.empty evs) now window).2.global_rate
      = (st.map (fun p => (pruneLoop c p.2).length)).sum := by
    have hrfl : (snapshot (recordAll AggState.empty evs) now window).2.global_rate
        = (pruneLoop c g).length := rfl
    rw [hrfl, lhs_eq, count_eq]
    congr 1
    exact List.map_congr_left per_key
  have goal_rhs :
      (((snapshot (recordAll AggState.empty evs) now window).2.entries).map
        Prod.snd).sum
      = (st.map (fun p => (pruneLoop c p.2).length)).sum := by
    rw [rhs_perm.sum_eq, List.map_map]
    have comp_eq : (Prod.snd ∘ fun p : Key × List Timestamp => (p.1, p.2.length))
        = fun p : Key × List Timestamp => p.2.length := rfl
    rw [comp_eq, sum_map_length_filter_pos, List.map_map]
    rfl
  exact goal_lhs.trans goal_rhs.symm

/-- Witness for C2 at a concrete input: two symbols, one stale and one
fresh timestamp. -/
theorem snapshot_global_rate_eq_sum_witness :
    List.Sorted (· ≤ ·) ([("AAPL", 0), ("GOOG", 30)].map (Prod.snd (α := Key)))
    ∧ (snapshot (recordAll AggState.empty [("AAPL", 0), ("GOOG", 30)]) 70 60).2.global_rate
      = (((snapshot (recordAll AggState.empty
          [("AAPL", 0), ("GOOG", 30)]) 70 60).2.entries).map Prod.snd).sum :=
  ⟨by decide, snapshot_global_rate_eq_sum [("AAPL", 0), ("GOOG", 30)] (by decide) 70 60⟩

/-- Key presence is untouched by any per-record rewrite of the table. -/
theorem hasKey_map_fst (m : SymTable) (k : Key)
    (f : Key × List Timestamp → List Timestamp) :
    hasKey (m.map (fun p => (p.1, f p))) k = hasKey m k := by
  simp only [hasKey, List.any_map]
  rfl

/-- C4: a key whose pruned record is empty (rate zero) never appears in
the report's entries, yet the key — with its empty record — remains in
the aggregator state after the snapshot. -/
theorem snapshot_zero_rate_key (s : AggState) (now window : Timestamp) (k : Key)
    (hk : hasKey s.symbol_timestamps k = true)
    (hempty : ∀ p ∈ s.symbol_timestamps, p.1 = k →
      pruneLoop (now - window) p.2 = []) :
    (∀ e ∈ (snapshot s now window).2.entries, e.1 ≠ k)
    ∧ hasKey (snapshot s now window).1.symbol_timestamps k = true := by
  constructor
  · intro e he hek
    have he' : e ∈ ((s.symbol_timestamps.map
          (fun p => (p.1, pruneLoop (now - window) p.2))).filter
            (fun p => decide (0 < p.2.length))).map (fun p => (p.1, p.2.length)) :=
      (sortRatesDesc_perm _).mem_iff.mp he
    rcases List.mem_map.mp he' with ⟨p, hp, hep⟩
    rcases List.mem_filter.mp hp with ⟨hpm, hppos⟩
    rcases List.mem_map.mp hpm with ⟨q, hq, hpq⟩
    have hqk : q.1 = k := by
      have : p.1 = k := by rw [← hek, ← hep]
      rw [← this, ← hpq]
    have hq0 : pruneLoop (now - window) q.2 = [] := hempty q hq hqk
    rw [← hpq] at hppos
    simp [hq0] at hppos
  · show hasKey (s.symbol_timestamps.map
        (fun p => (p.1, pruneLoop (now - window) p.2))) k = true
    rw [hasKey_map_fst s.symbol_timestamps k
      (fun p => pruneLoop (now - window) p.2)]
    exact hk

/-- Witness for C4 at a concrete input: `"GOOG"` was recorded once at
time 0 but is stale at `now = 100`. -/
theorem snapshot_zero_rate_key_witness :
    (hasKey (recordAll AggState.empty
        [("GOOG", 0)]).symbol_timestamps "GOOG" = true)
    ∧ (∀ p ∈ (recordAll AggState.empty [("GOOG", 0)]).symbol_timestamps,
        p.1 = "GOOG" → pruneLoop ((100 : Timestamp) - 60) p.2 = [])
    ∧ ((∀ e ∈ (snapshot (recordAll AggState.empty
          [("GOOG", 0)]) 100 60).2.entries, e.1 ≠ "GOOG")
      ∧ hasKey (snapshot (recordAll AggState.empty
          [("GOOG", 0)]) 100 60).1.symbol_timestamps "GOOG" = true) :=
  ⟨by decide, by decide,
    snapshot_zero_rate_key (recordAll AggState.empty [("GOOG", 0)]) 100 60
      "GOOG" (by decide) (by decide)⟩

/-- A pricing frame appends the receipt time to the global record and to
exactly one symbol record, leaves every other symbol record unchanged,
and produces no observer output. -/
theorem processFrame_pricing_effect (s : AggState) (d : Decoded) (now : Timestamp)
    (h : d.type = some "pricing") :
    ∃ k, (processFrame s d now).1.global_timestamps
        = s.global_timestamps ++ [now]
      ∧ lookupRecord (processFrame s d now).1.symbol_timestamps k
          = lookupRecord s.symbol_timestamps k ++ [now]
      ∧ (∀ j, j ≠ k → lookupRecord (processFrame s d now).1.symbol_timestamps j
          = lookupRecord s.symbol_timestamps j)
      ∧ (processFrame s d now).2 = none := by
  have hpf : processFrame s d now
      = (record s ((d.message.getD ⟨none⟩).id.getD "UNKNOWN") now, none) := by
    simp [processFrame, h]
  rw [hpf]
  refine ⟨(d.message.getD ⟨none⟩).id.getD "UNKNOWN", by simp [record], ?_, ?_, rfl⟩
  · exact lookupRecord_appendToKey_self s.symbol_timestamps _ now
  · intro j hj
    exact lookupRecord_appendToKey_ne s.symbol_timestamps _ j now hj

/-- C5: the per-frame ingestion step appends the receipt time to the
global record and to exactly one symbol record if and only if the frame's
discriminator equals `"pricing"`; any other decoded frame is forwarded to
the observer unchanged and leaves the whole state — hence every
record — exactly as it was. -/
theorem processFrame_pricing_iff (s : AggState) (d : Decoded) (now : Timestamp) :
    (d.type = some "pricing" →
      ∃ k, (processFrame s d now).1.global_timestamps
          = s.global_timestamps ++ [now]
        ∧ lookupRecord (processFrame s d now).1.symbol_timestamps k
            = lookupRecord s.symbol_timestamps k ++ [now]
        ∧ (∀ j, j ≠ k → lookupRecord (processFrame s d now).1.symbol_timestamps j
            = lookupRecord s.symbol_timestamps j)
        ∧ (processFrame s d now).2 = none)
    ∧ (d.type ≠ some "pricing" →
        (processFrame s d now).1 = s ∧ (processFrame s d now).2 = some d) := by
  constructor
  · exact processFrame_pricing_effect s d now
  · intro h
    simp [processFrame, h]

/-- Witness for C5 at a concrete input: a `"heartbeat"` frame leaves the
state alone and is forwarded unchanged. -/
theorem processFrame_pricing_iff_witness :
    (processFrame (recordAll AggState.empty [("AAPL", 0)])
        ⟨some "heartbeat", none⟩ 5).1 = recordAll AggState.empty [("AAPL", 0)]
    ∧ (processFrame (recordAll AggState.empty [("AAPL", 0)])
        ⟨some "heartbeat", none⟩ 5).2 = some ⟨some "heartbeat", none⟩ :=
  (processFrame_pricing_iff (recordAll AggState.empty [("AAPL", 0)])
    ⟨some "heartbeat", none⟩ 5).2 (by decide)

/-- C9: a pricing frame whose message object lacks an `id` field is
recorded under the sentinel key `"UNKNOWN"`: the receipt time is appended
to the `"UNKNOWN"` record and to the global record. -/
theorem pricing_missing_id_unknown (s : AggState) (d : Decoded) (now : Timestamp)
    (hty : d.type = some "pricing") (hmsg : d.message = some ⟨none⟩) :
    (processFrame s d now).1 = record s "UNKNOWN" now
    ∧ (processFrame s d now).1.global_timestamps = s.global_timestamps ++ [now]
    ∧ lookupRecord (processFrame s d now).1.symbol_timestamps "UNKNOWN"
        = lookupRecord s.symbol_timestamps "UNKNOWN" ++ [now] := by
  have hpf : processFrame s d now = (record s "UNKNOWN" now, none) := by
    simp [processFrame, hty, hmsg]
  rw [hpf]
  exact ⟨rfl, by simp [record],
    lookupRecord_appendToKey_self s.symbol_timestamps "UNKNOWN" now⟩

/-- Witness for C9 at a concrete input. -/
theorem pricing_missing_id_unknown_witness :
    (Decoded.type ⟨some "pricing", some ⟨none⟩⟩ = some "pricing")
    ∧ (Decoded.message ⟨some "pricing", some ⟨none⟩⟩ = some ⟨none⟩)
    ∧ ((processFrame (recordAll AggState.empty [("AAPL", 0)])
          ⟨some "pricing", some ⟨none⟩⟩ 7).1
        = record (recordAll AggState.empty [("AAPL", 0)]) "UNKNOWN" 7
      ∧ (processFrame (recordAll AggState.empty [("AAPL", 0)])
          ⟨some "pricing", some ⟨none⟩⟩ 7).1.global_timestamps
        = (recordAll AggState.empty [("AAPL", 0)]).global_timestamps ++ [7]
      ∧ lookupRecord (processFrame (recordAll AggState.empty [("AAPL", 0)])
          ⟨some "pricing", some ⟨none⟩⟩ 7).1.symbol_timestamps "UNKNOWN"
        = lookupRecord (recordAll AggState.empty
            [("AAPL", 0)]).symbol_timestamps "UNKNOWN" ++ [7]) :=
  ⟨rfl, rfl,
    pricing_missing_id_unknown (recordAll AggState.empty [("AAPL", 0)])
      ⟨some "pricing", some ⟨none⟩⟩ 7 rfl rfl⟩

/-- C10: a pricing frame with no `message` object at all is also recorded
under `"UNKNOWN"` (the missing object defaults to an empty one), and every
pricing frame, however sparse, appends the one receipt timestamp to the
global record and to exactly one symbol record while every other record
stays unchanged. -/
theorem pricing_missing_message_unknown (s : AggState) (d : Decoded)
    (now : Timestamp) (hty : d.type = some "pricing") :
    (d.message = none → (processFrame s d now).1 = record s "UNKNOWN" now)
    ∧ ∃ k, (processFrame s d now).1.global_timestamps
          = s.global_timestamps ++ [now]
      ∧ lookupRecord (processFrame s d now).1.symbol_timestamps k
          = lookupRecord s.symbol_timestamps k ++ [now]
      ∧ ∀ j, j ≠ k → lookupRecord (processFrame s d now).1.symbol_timestamps j
          = lookupRecord s.symbol_timestamps j := by
  constructor
  · intro hmsg
    simp [processFrame, hty, hmsg]
  · exact (processFrame_pricing_effect s d now hty).imp
      (fun k hk => ⟨hk.1, hk.2.1, hk.2.2.1⟩)

/-- Witness for C10 at a concrete input: a pricing frame with no message
object lands under `"UNKNOWN"`. -/
theorem pricing_missing_message_unknown_witness :
    (Decoded.type ⟨some "pricing", none⟩ = some "pricing")
    ∧ ((Decoded.message ⟨some "pricing", none⟩ = none →
        (processFrame (recordAll AggState.empty [("AAPL", 0)])
          ⟨some "pricing", none⟩ 9).1
          = record (recordAll AggState.empty [("AAPL", 0)]) "UNKNOWN" 9)
      ∧ ∃ k, (processFrame (recordAll AggState.empty [("AAPL", 0)])
            ⟨some "pricing", none⟩ 9).1.global_timestamps
          = (recordAll AggState.empty [("AAPL", 0)]).global_timestamps ++ [9]
        ∧ lookupRecord (processFrame (recordAll AggState.empty [("AAPL", 0)])
            ⟨some "pricing", none⟩ 9).1.symbol_timestamps k
          = lookupRecord (recordAll AggState.empty
              [("AAPL", 0)]).symbol_timestamps k ++ [9]
        ∧ ∀ j, j ≠ k →
            lookupRecord (processFrame (recordAll AggState.empty [("AAPL", 0)])
              ⟨some "pricing", none⟩ 9).1.symbol_timestamps j
            = lookupRecord (recordAll AggState.empty
                [("AAPL", 0)]).symbol_timestamps j) :=
  ⟨rfl,
    pricing_missing_message_unknown (recordAll AggState.empty [("AAPL", 0)])
      ⟨some "pricing", none⟩ 9 rfl⟩
